import Mathlib

/-!
Shallow embedding of the firego Firebase REST client (src/firebase.go together
with the Push source file). Go strings are modelled as lists of characters, Go
maps as association lists, and Go slice values as references into an explicit
store wherever sharing is observable. Network and serialization effects are
passed in as explicit function arguments, so every definition is executable.
-/

/-- Go strings, modelled as lists of characters. -/
abbrev Str := List Char

/-- Embed a Lean string literal as a Go string. -/
def str (s : String) : Str := s.data

/-- strings.HasPrefix(s, pre). -/
def HasPrefix (s pre : Str) : Bool := pre.isPrefixOf s

/-- strings.HasSuffix(s, suf). -/
def HasSuffix (s suf : Str) : Bool := suf.isSuffixOf s

/-- strings.Trim(s, cutset) for a one-character cutset: removes every leading
and every trailing occurrence of the character. -/
def Trim (s : Str) (cutset : Char) : Str :=
  ((s.dropWhile (· == cutset)).reverse.dropWhile (· == cutset)).reverse

/-- strings.TrimSuffix(s, suf): drops one copy of suf when it is a suffix. -/
def TrimSuffix (s suf : Str) : Str :=
  if HasSuffix s suf then s.take (s.length - suf.length) else s

/-- firebase.go sanitizeURL: prepend https:// when the address carries neither
an https:// nor an http:// scheme, then strip one trailing slash. -/
def sanitizeURL (url : Str) : Str :=
  let u :=
    if !(HasPrefix url (str "https://")) && !(HasPrefix url (str "http://")) then
      str "https://" ++ url
    else
      url
  if HasSuffix u (str "/") then u.dropLast else u

/-- firebase.go sanitizePath: trim slashes from both ends, drop a .json
suffix, then drop a trailing slash that dropping .json may have exposed. -/
def sanitizePath (p : Str) : Str :=
  let s := Trim p '/'
  let s2 := TrimSuffix s (str ".json")
  TrimSuffix s2 (str "/")

/-- A store of Go string slices; a slice value is an index into this store, so
that distinct maps can share one underlying slice. -/
structure Store where
  cells : List (List String)

/-- Dereference a slice. -/
def Store.read (st : Store) (r : Nat) : List String := st.cells.getD r []

/-- Allocate a fresh slice, returning the extended store and the new
reference. -/
def Store.alloc (st : Store) (v : List String) : Store × Nat :=
  (⟨st.cells ++ [v]⟩, st.cells.length)

/-- In-place update of one element of a slice, visible through every map that
holds a reference to the slice. -/
def Store.writeElem (st : Store) (r i : Nat) (x : String) : Store :=
  ⟨st.cells.set r ((st.cells.getD r []).set i x)⟩

/-- url.Values: a Go map from parameter name to a slice of strings, modelled
as an association list from the name to a slice reference. -/
abbrev Values := List (String × Nat)

/-- Go map assignment m[k] = v on an association list. -/
def assocSet {β : Type} (l : List (String × β)) (k : String) (v : β) : List (String × β) :=
  match l with
  | [] => [(k, v)]
  | (k2, v2) :: rest => if k2 == k then (k, v) :: rest else (k2, v2) :: assocSet rest k v

/-- The observable contents of a url.Values map: each key with the contents of
the slice it references. -/
def valuesView (st : Store) (vs : Values) : List (String × List String) :=
  vs.map (fun kv => (kv.1, st.read kv.2))

/-- url.Values.Set(key, value): point the key at a freshly allocated
one-element slice. -/
def valuesSet (st : Store) (vs : Values) (k v : String) : Store × Values :=
  let a := Store.alloc st [v]
  (a.1, assocSet vs k a.2)

/-- Uppercase hexadecimal digit, for percent-escaping. -/
def hexDigitUpper (k : Nat) : Char :=
  if k < 10 then Char.ofNat (48 + k) else Char.ofNat (55 + k)

/-- The UTF-8 bytes of one character, as numbers below 256. -/
def utf8Bytes (c : Char) : List Nat :=
  let u := c.toNat
  if u < 0x80 then [u]
  else if u < 0x800 then [0xC0 + u / 0x40, 0x80 + u % 0x40]
  else if u < 0x10000 then [0xE0 + u / 0x1000, 0x80 + u / 0x40 % 0x40, 0x80 + u % 0x40]
  else [0xF0 + u / 0x40000, 0x80 + u / 0x1000 % 0x40, 0x80 + u / 0x40 % 0x40, 0x80 + u % 0x40]

/-- The bytes net/url leaves unescaped in a query component: letters, digits,
and the four marks - _ . ~ . -/
def isUnreservedByte (b : Nat) : Bool :=
  (48 ≤ b && b ≤ 57) || (65 ≤ b && b ≤ 90) || (97 ≤ b && b ≤ 122) ||
    b == 45 || b == 95 || b == 46 || b == 126

/-- Escape one byte the way net/url escapes query components: unreserved bytes
stand for themselves, a space becomes a plus sign, anything else becomes a
percent escape. -/
def queryEscapeByte (b : Nat) : Str :=
  if isUnreservedByte b then [Char.ofNat b]
  else if b == 32 then ['+']
  else ['%', hexDigitUpper (b / 16 % 16), hexDigitUpper (b % 16)]

/-- net/url QueryEscape. -/
def QueryEscape (s : String) : Str :=
  List.flatten ((List.flatten (s.data.map utf8Bytes)).map queryEscapeByte)

/-- Insert a string into an ascending list; folding it builds the ascending
order that sort.Strings produces. -/
def insertSorted (x : String) : List String → List String
  | [] => [x]
  | y :: ys => if x < y then x :: y :: ys else y :: insertSorted x ys

/-- sort.Strings. -/
def sortStrings (l : List String) : List String := l.foldr insertSorted []

/-- url.Values.Encode: keys in sorted order, each value rendered as
key=value with both sides percent-escaped, the pairs joined by ampersands. -/
def Values.Encode (st : Store) (vs : Values) : Str :=
  let keys := sortStrings (vs.map Prod.fst)
  let parts := List.flatten (keys.map (fun k =>
    (Store.read st ((vs.lookup k).getD 0)).map (fun v =>
      QueryEscape k ++ str "=" ++ QueryEscape v)))
  List.intercalate (str "&") parts

/-- The Firebase reference: its rendered address and its query parameters.
The http client, the mutexes and the channels of the Go struct are runtime
handles with no pure observable content and are not carried here. -/
structure Firebase where
  url : Str
  params : Values

/-- firebase.go New: sanitize the address and start with an empty parameter
map; the transport construction is runtime-only and is modelled where the
transport is consumed. -/
def New (url : Str) : Firebase :=
  { url := sanitizeURL url, params := [] }

/-- firebase.go String: the address plus /.json, plus a question mark and the
encoded parameters when any parameter is set. -/
def Firebase.String (st : Store) (fb : Firebase) : Str :=
  let path := fb.url ++ str "/.json"
  if fb.params.length > 0 then path ++ str "?" ++ Values.Encode st fb.params else path

/-- firebase.go copy, parameter part: the map is rebuilt key by key into a
fresh map, each key keeping the same slice reference as in the source map. -/
def copyParams (ps : Values) : Values :=
  ps.foldl (fun acc kv => assocSet acc kv.1 kv.2) []

/-- firebase.go copy: a fresh Firebase with the same address and a freshly
built parameter map. -/
def Firebase.copy (fb : Firebase) : Firebase :=
  { url := fb.url, params := copyParams fb.params }

/-- firebase.go Child: copy the reference and append a slash and the raw
child segment to the address. -/
def Firebase.Child (fb : Firebase) (child : Str) : Firebase :=
  let c := fb.copy
  { c with url := c.url ++ str "/" ++ child }

/-- An http.Request reduced to its header map, from name to slice of
values. -/
structure Request where
  header : List (String × List String)

/-- firebase.go defaultRedirectLimit. -/
def defaultRedirectLimit : Nat := 30

/-- firebase.go redirectPreserveHeaders: an empty chain is fine; a chain of
more than defaultRedirectLimit prior requests is an error; otherwise every
header of the first request of the chain is written onto the current
request. -/
def redirectPreserveHeaders (req : Request) (via : List Request) : Except String Request :=
  match via with
  | [] => .ok req
  | first :: rest =>
    if (first :: rest).length > defaultRedirectLimit then
      .error (toString (first :: rest).length ++ " consecutive requests(redirects)")
    else
      .ok ⟨first.header.foldl (fun h kv => assocSet h kv.1 kv.2) req.header⟩

/-- The transport error shapes that the doRequest type switch distinguishes:
a url.Error wrapping an inner error, a net.Error carrying its Timeout() flag,
or any other error value. -/
inductive GoError where
  | urlErr (inner : GoError) (msg : String)
  | netErr (timedOut : Bool) (msg : String)
  | otherErr (msg : String)

/-- The net.Error type assertion combined with Timeout(): a net.Error answers
its own flag, and a url.Error is itself a net.Error whose Timeout() delegates
to the error it wraps. -/
def GoError.asNetError : GoError → Option Bool
  | .netErr t _ => some t
  | .urlErr inner _ => inner.asNetError
  | .otherErr _ => none

/-- An http.Response reduced to its status code and the outcome of reading
its body to the end. -/
structure HttpResponse where
  statusCode : Nat
  body : Except String Str

/-- The error outcomes of doRequest: request construction failure, the
ErrTimeout wrapper, a transport error returned as is, a body read failure, or
a non-success status carrying the raw response body. -/
inductive FiregoError where
  | makeReq (msg : String)
  | errTimeout (e : GoError)
  | transportErr (e : GoError)
  | readBody (msg : String)
  | remote (body : Str)

/-- firebase.go doRequest: build the request, run the transport, classify a
transport error through the type switch (a url.Error wrapping a timing-out
net.Error and a directly returned timing-out net.Error become ErrTimeout —
the response-header deadline surfaces as the url.Error shape — and every
other error is returned as is), then read the body and accept exactly the
status codes whose integer quotient by 200 is one. -/
def doRequest (mkReq : Except String Unit)
    (transport : String → Str → Except GoError HttpResponse)
    (method : String) (body : Str) : Except FiregoError Str :=
  match mkReq with
  | .error e => .error (.makeReq e)
  | .ok _ =>
    match transport method body with
    | .error (GoError.urlErr inner msg) =>
      match inner.asNetError with
      | some true => .error (.errTimeout (.urlErr inner msg))
      | _ => .error (.transportErr (.urlErr inner msg))
    | .error (GoError.netErr t msg) =>
      if t then .error (.errTimeout (.netErr t msg))
      else .error (.transportErr (.netErr t msg))
    | .error e => .error (.transportErr e)
    | .ok resp =>
      match resp.body with
      | .error e => .error (.readBody e)
      | .ok respBody =>
        if resp.statusCode / 200 ≠ 1 then .error (.remote respBody)
        else .ok respBody

namespace PushFile

/-- The Firebase shape used by the Push source file: it addresses a reference
through repo and path fields. -/
structure Firebase where
  repo : Str
  path : Str

/-- The error outcomes of Push. -/
inductive PushError where
  | marshal (msg : String)
  | request (e : FiregoError)
  | unmarshal (msg : String)

/-- Go map read m[k], with the zero value of the value type as default. -/
def mapGetD (m : List (String × Str)) (k : String) : Str :=
  (m.lookup k).getD []

/-- Push: marshal the value, POST the bytes through doRequest, unmarshal the
reply into a map from string to string, and return a reference whose path is
the parent path extended with a slash and the name field of the reply. -/
def Push (fb : Firebase) (marshalled : Except String Str)
    (mkReq : Except String Unit)
    (transport : String → Str → Except GoError HttpResponse)
    (unmarshal : Str → Except String (List (String × Str))) : Except PushError Firebase :=
  match marshalled with
  | .error e => .error (.marshal e)
  | .ok bs =>
    match doRequest mkReq transport "POST" bs with
    | .error e => .error (.request e)
    | .ok respBody =>
      match unmarshal respBody with
      | .error e => .error (.unmarshal e)
      | .ok m => .ok { repo := fb.repo, path := fb.path ++ str "/" ++ mapGetD m "name" }

end PushFile

/-- Modelled from the spec: the streaming Start and Stop operations are not in
src, which declares only the Firebase struct fields watchMtx, watching and
stopWatching. Per the spec, Start checks the active flag under the mutex,
refusing to spawn anything when a session is already active, and otherwise
marks the session active and spawns exactly one decode loop; Stop signals the
loop to terminate and clears the flag. The mutex serializes Start and Stop,
so they are modelled as atomic steps of a state machine; readers counts the
live decode loops. -/
structure WatchState where
  watching : Bool
  readers : Nat

/-- The two operations that change the streaming state. -/
inductive WatchOp where
  | start
  | stop

/-- One serialized Start or Stop step. -/
def stepWatch (s : WatchState) : WatchOp → WatchState
  | .start => if s.watching then s else { watching := true, readers := s.readers + 1 }
  | .stop => if s.watching then { watching := false, readers := s.readers - 1 } else s

/-- The state of a freshly built reference: not watching, no decode loop. -/
def initialWatchState : WatchState := ⟨false, 0⟩

/-- Run a sequence of serialized Start and Stop steps from the initial
state. -/
def runWatch (ops : List WatchOp) : WatchState :=
  ops.foldl stepWatch initialWatchState


lemma isPrefixOf_append_self (p t : Str) : p.isPrefixOf (p ++ t) = true := by
  induction p with
  | nil => simp [List.isPrefixOf]
  | cons a as ih => simp [List.isPrefixOf, ih]

lemma hasSuffix_single_append (c : Char) (l a : Str) (h : a ≠ []) :
    HasSuffix (l ++ a) [c] = HasSuffix a [c] := by
  have hrev : a.reverse ≠ [] := by simpa using h
  cases hA : a.reverse with
  | nil => exact absurd hA hrev
  | cons h0 t =>
    simp only [HasSuffix, List.isSuffixOf, List.reverse_append, hA]
    simp [List.isPrefixOf]

lemma hasSuffix_concat (c : Char) (l : Str) : HasSuffix (l ++ [c]) [c] = true := by
  simp [HasSuffix, List.isSuffixOf, List.reverse_append, List.isPrefixOf]

lemma isPrefixOf_concat_cases (p l : Str) (c : Char)
    (hp : p.isPrefixOf (l ++ [c]) = true) : p.isPrefixOf l = true ∨ p = l ++ [c] := by
  rw [List.isPrefixOf_iff_prefix] at hp
  obtain ⟨t, ht⟩ := hp
  rcases List.eq_nil_or_concat t with rfl | ⟨t2, b, rfl⟩
  · right
    simpa using ht
  · left
    rw [List.concat_eq_append, ← List.append_assoc] at ht
    have h2 := congrArg List.dropLast ht
    simp only [List.dropLast_concat] at h2
    rw [List.isPrefixOf_iff_prefix]
    exact ⟨t2, h2⟩

lemma hasPrefix_concat_false (a p : Str) (c : Char) (h1 : HasPrefix a p = false)
    (h2 : a ++ [c] ≠ p) : HasPrefix (a ++ [c]) p = false := by
  cases hEq : HasPrefix (a ++ [c]) p with
  | false => rfl
  | true =>
    exfalso
    have hp : p.isPrefixOf (a ++ [c]) = true := hEq
    rcases isPrefixOf_concat_cases p a c hp with hc | hc
    · simp only [HasPrefix] at h1
      rw [h1] at hc
      exact Bool.noConfusion hc
    · exact h2 hc.symm

/-- Claim C9: an address carrying neither the https:// nor the http:// scheme
gets https:// prepended unconditionally — an ftp:// address becomes
https://ftp://... — and an address already carrying http:// keeps that scheme
and is not upgraded. -/
theorem sanitizeURL_scheme_cases :
    (∀ a : Str, HasPrefix a (str "https://") = false → HasPrefix a (str "http://") = false →
      sanitizeURL a =
        (if HasSuffix (str "https://" ++ a) (str "/") then (str "https://" ++ a).dropLast
         else str "https://" ++ a))
    ∧ sanitizeURL (str "ftp://host") = str "https://ftp://host"
    ∧ (∀ a : Str, HasPrefix a (str "http://") = true →
      sanitizeURL a = (if HasSuffix a (str "/") then a.dropLast else a)) := by
  refine ⟨?_, by decide, ?_⟩
  · intro a h1 h2
    simp [sanitizeURL, h1, h2]
  · intro a h2
    simp [sanitizeURL, h2]

/-- Witness for claim C9 at a concrete ftp address. -/
theorem sanitizeURL_scheme_cases_witness :
    sanitizeURL (str "ftp://x") = str "https://ftp://x" := by
  have h := sanitizeURL_scheme_cases.1 (str "ftp://x") (by decide) (by decide)
  rw [h]
  decide

/-- Claim C2: every transport error that is a timing-out net.Error — whether
wrapped in a url.Error, the shape the response-header deadline produces, or
returned directly — makes doRequest return the distinguished ErrTimeout kind,
and every other transport error is returned as a generic non-timeout error. -/
theorem doRequest_timeout_classification :
    ∀ (method : String) (body : Str) (e : GoError),
      (e.asNetError = some true →
        doRequest (.ok ()) (fun _ _ => .error e) method body = .error (.errTimeout e))
      ∧ (e.asNetError ≠ some true →
        doRequest (.ok ()) (fun _ _ => .error e) method body = .error (.transportErr e)) := by
  intro method body e
  constructor
  · intro h
    cases e with
    | urlErr inner msg =>
      have h2 : inner.asNetError = some true := by simpa [GoError.asNetError] using h
      simp [doRequest, h2]
    | netErr t msg =>
      have h2 : t = true := by simpa [GoError.asNetError] using h
      subst h2
      simp [doRequest]
    | otherErr msg => simp [GoError.asNetError] at h
  · intro h
    cases e with
    | urlErr inner msg =>
      have h2 : inner.asNetError ≠ some true := by simpa [GoError.asNetError] using h
      cases hA : inner.asNetError with
      | none => simp [doRequest, hA]
      | some b =>
        cases b with
        | true => exact absurd hA h2
        | false => simp [doRequest, hA]
    | netErr t msg =>
      cases t with
      | true => simp [GoError.asNetError] at h
      | false => simp [doRequest]
    | otherErr msg => simp [doRequest]

/-- Witness for claim C2: a url.Error wrapping a timing-out net.Error is
classified as ErrTimeout. -/
theorem doRequest_timeout_classification_witness :
    doRequest (.ok ())
      (fun _ _ => .error (.urlErr (.netErr true "net timed out") "Get failed"))
      "GET" [] =
      .error (.errTimeout (.urlErr (.netErr true "net timed out") "Get failed")) :=
  (doRequest_timeout_classification "GET" []
    (.urlErr (.netErr true "net timed out") "Get failed")).1 (by rfl)

/-- Claim C1 (counterexample): status code 300 lies outside the 200 to 299
range named by the claim, yet doRequest treats the response as success and
returns the body rather than a failure. -/
theorem doRequest_status_counterexample :
    ¬ (200 ≤ 300 ∧ 300 ≤ 299) ∧
      doRequest (.ok ()) (fun _ _ => .ok ⟨300, .ok (str "moved")⟩) "GET" (str "") =
        .ok (str "moved") :=
  ⟨by decide, by rfl⟩

/-- Claim C1 (amended): doRequest treats exactly the status codes from 200 to
399 — those whose integer quotient by 200 is one — as success, returning the
response body verbatim, and any status below 200 or at 400 and above as a
failure whose error detail is exactly the raw response body. -/
theorem doRequest_status_range :
    ∀ (method : String) (body respBody : Str) (code : Nat),
      (200 ≤ code → code ≤ 399 →
        doRequest (.ok ()) (fun _ _ => .ok ⟨code, .ok respBody⟩) method body = .ok respBody)
      ∧ (code < 200 ∨ 400 ≤ code →
        doRequest (.ok ()) (fun _ _ => .ok ⟨code, .ok respBody⟩) method body =
          .error (.remote respBody)) := by
  intro method body respBody code
  constructor
  · intro h1 h2
    have hq : code / 200 = 1 := by omega
    simp [doRequest, hq]
  · intro h
    have hq : code / 200 ≠ 1 := by omega
    simp [doRequest, hq]

/-- Witness for the amended claim C1 at status 200. -/
theorem doRequest_status_range_witness :
    doRequest (.ok ()) (fun _ _ => .ok ⟨200, .ok (str "null")⟩) "GET" [] = .ok (str "null") :=
  (doRequest_status_range "GET" [] (str "null") 200).1 (by decide) (by decide)

/-- Claim C10: when serialization fails, Push returns exactly that
serialization error, whatever the transport would answer, so no request is
performed and no reference is returned. -/
theorem push_marshal_error_no_request :
    ∀ (fb : PushFile.Firebase) (msg : String) (mkReq : Except String Unit)
      (transport : String → Str → Except GoError HttpResponse)
      (unmarshal : Str → Except String (List (String × Str))),
      PushFile.Push fb (.error msg) mkReq transport unmarshal = .error (.marshal msg) := by
  intro fb msg mkReq transport unmarshal
  rfl

/-- Claim C7: a successful Push POSTs the marshalled bytes — the outcome
depends on the transport only through its answer to that one POST request —
reads the generated key from the name field of the decoded reply, and returns
a child reference whose path is the parent path extended with exactly that
key. -/
theorem push_success_shape :
    ∀ (fb : PushFile.Firebase) (bs replyBody : Str) (code : Nat)
      (transport : String → Str → Except GoError HttpResponse)
      (unmarshal : Str → Except String (List (String × Str))) (m : List (String × Str)),
      transport "POST" bs = .ok ⟨code, .ok replyBody⟩ → 200 ≤ code → code ≤ 299 →
      unmarshal replyBody = .ok m →
      PushFile.Push fb (.ok bs) (.ok ()) transport unmarshal =
        .ok ⟨fb.repo, fb.path ++ str "/" ++ PushFile.mapGetD m "name"⟩
      ∧ ∀ transport2 : String → Str → Except GoError HttpResponse,
          transport2 "POST" bs = transport "POST" bs →
          PushFile.Push fb (.ok bs) (.ok ()) transport2 unmarshal =
            PushFile.Push fb (.ok bs) (.ok ()) transport unmarshal := by
  intro fb bs replyBody code transport unmarshal m ht h1 h2 hu
  have hq : code / 200 = 1 := by omega
  constructor
  · simp [PushFile.Push, doRequest, ht, hq, hu]
  · intro transport2 ht2
    simp [PushFile.Push, doRequest, ht2]

/-- Witness for claim C7 at a concrete transport and reply. -/
theorem push_success_shape_witness :
    PushFile.Push ⟨str "repo", str "users"⟩ (.ok (str "1"))
      (.ok ())
      (fun method _ =>
        if method = "POST" then .ok ⟨200, .ok (str "reply")⟩
        else .error (.otherErr "wrong method"))
      (fun _ => .ok [("name", str "k1")]) =
      .ok ⟨str "repo", str "users" ++ str "/" ++ PushFile.mapGetD [("name", str "k1")] "name"⟩ :=
  (push_success_shape ⟨str "repo", str "users"⟩ (str "1") (str "reply") 200 _ _
    [("name", str "k1")] (by rfl) (by decide) (by decide) (by rfl)).1

lemma str_slash : str "/" = ['/'] := rfl

lemma concat_ne_of_dropLast_ne (a target : Str) (c : Char) (h : a ≠ target.dropLast) :
    a ++ [c] ≠ target := by
  intro hEq
  apply h
  have h2 := congrArg List.dropLast hEq
  simpa [List.dropLast_concat] using h2

lemma string_new (st : Store) (x : Str) :
    Firebase.String st (New x) = sanitizeURL x ++ str "/.json" := rfl

/-- Claim C5: a nonempty address with no scheme and no trailing slash (and
which does not become a scheme by gaining the slash) renders identically
through New and String in all four variants: bare, with a trailing slash,
with the https scheme, and with both. -/
theorem address_variants_render_identically :
    ∀ (a : Str) (st : Store), a ≠ [] →
      HasPrefix a (str "https://") = false → HasPrefix a (str "http://") = false →
      a ≠ str "https:/" → a ≠ str "http:/" →
      HasSuffix a (str "/") = false →
      Firebase.String st (New a) = str "https://" ++ a ++ str "/.json"
      ∧ Firebase.String st (New (a ++ str "/")) = str "https://" ++ a ++ str "/.json"
      ∧ Firebase.String st (New (str "https://" ++ a)) = str "https://" ++ a ++ str "/.json"
      ∧ Firebase.String st (New (str "https://" ++ a ++ str "/")) =
          str "https://" ++ a ++ str "/.json" := by
  intro a st ha h1 h2 hne1 hne2 hs
  have hs2 : HasSuffix (str "https://" ++ a) (str "/") = false := by
    rw [str_slash, hasSuffix_single_append '/' (str "https://") a ha, ← str_slash]
    exact hs
  have hp1 : HasPrefix (a ++ str "/") (str "https://") = false := by
    rw [str_slash]
    refine hasPrefix_concat_false a _ '/' h1 (concat_ne_of_dropLast_ne a _ '/' ?_)
    intro hx
    exact hne1 (hx.trans (by decide))
  have hp2 : HasPrefix (a ++ str "/") (str "http://") = false := by
    rw [str_slash]
    refine hasPrefix_concat_false a _ '/' h2 (concat_ne_of_dropLast_ne a _ '/' ?_)
    intro hx
    exact hne2 (hx.trans (by decide))
  have hp3 : HasPrefix (str "https://" ++ a) (str "https://") = true :=
    isPrefixOf_append_self _ _
  have hcat : HasSuffix (a ++ str "/") (str "/") = true := by
    rw [str_slash]
    exact hasSuffix_concat '/' a
  have e1 : sanitizeURL a = str "https://" ++ a := by
    simp [sanitizeURL, h1, h2, hs2]
  have e2 : sanitizeURL (a ++ str "/") = str "https://" ++ a := by
    have hdrop : (str "https://" ++ (a ++ str "/")).dropLast = str "https://" ++ a := by
      rw [str_slash, ← List.append_assoc]
      exact List.dropLast_concat
    have hsx : HasSuffix (str "https://" ++ (a ++ str "/")) (str "/") = true := by
      rw [str_slash, hasSuffix_single_append '/' (str "https://") (a ++ ['/']) (by simp)]
      rw [← str_slash]
      exact hcat
    simp [sanitizeURL, hp1, hp2, hsx, hdrop]
  have e3 : sanitizeURL (str "https://" ++ a) = str "https://" ++ a := by
    simp [sanitizeURL, hp3, hs2]
  have e4 : sanitizeURL (str "https://" ++ a ++ str "/") = str "https://" ++ a := by
    have hp4r : HasPrefix (str "https://" ++ (a ++ str "/")) (str "https://") = true :=
      isPrefixOf_append_self _ _
    have hdropr : (str "https://" ++ (a ++ str "/")).dropLast = str "https://" ++ a := by
      rw [str_slash, ← List.append_assoc]
      exact List.dropLast_concat
    have hsxr : HasSuffix (str "https://" ++ (a ++ str "/")) (str "/") = true := by
      rw [str_slash, hasSuffix_single_append '/' (str "https://") (a ++ ['/']) (by simp),
        ← str_slash]
      exact hcat
    rw [List.append_assoc]
    simp [sanitizeURL, hp4r, hsxr, hdropr]
  refine ⟨?_, ?_, ?_, ?_⟩ <;> rw [string_new]
  · rw [e1]
  · rw [e2]
  · rw [e3]
  · rw [e4]

/-- Witness for claim C5 at a concrete host address. -/
theorem address_variants_render_identically_witness :
    Firebase.String ⟨[]⟩ (New (str "example.com")) =
        str "https://" ++ str "example.com" ++ str "/.json"
    ∧ Firebase.String ⟨[]⟩ (New (str "example.com" ++ str "/")) =
        str "https://" ++ str "example.com" ++ str "/.json"
    ∧ Firebase.String ⟨[]⟩ (New (str "https://" ++ str "example.com")) =
        str "https://" ++ str "example.com" ++ str "/.json"
    ∧ Firebase.String ⟨[]⟩ (New (str "https://" ++ str "example.com" ++ str "/")) =
        str "https://" ++ str "example.com" ++ str "/.json" :=
  address_variants_render_identically (str "example.com") ⟨[]⟩ (by decide) (by decide)
    (by decide) (by decide) (by decide) (by decide)

lemma dropWhile_eq_self_of_head (p : Char → Bool) (s : Str)
    (h : ∀ x, s.head? = some x → p x = false) : s.dropWhile p = s := by
  cases s with
  | nil => rfl
  | cons a as => simp [List.dropWhile_cons, h a rfl]

lemma dropWhile_replicate_append (c : Char) (m : Nat) (l : Str)
    (h : l.dropWhile (· == c) = l) :
    (List.replicate m c ++ l).dropWhile (· == c) = l := by
  induction m with
  | zero => simpa using h
  | succ k ih => simpa [List.replicate_succ, List.dropWhile_cons] using ih

lemma head_ne_slash_of (s : Str) (h : s.head? ≠ some '/') :
    ∀ x, s.head? = some x → (x == '/') = false := by
  intro x hx
  have hxne : x ≠ '/' := fun hc => h (hc ▸ hx)
  simpa [beq_eq_false_iff_ne] using hxne

lemma revhead_ne_slash (s : Str) (hne : s ≠ []) (h : HasSuffix s (str "/") = false) :
    ∀ x, s.reverse.head? = some x → (x == '/') = false := by
  intro x hx
  have hrev : s.reverse ≠ [] := by simpa using hne
  cases hA : s.reverse with
  | nil => exact absurd hA hrev
  | cons h0 t =>
    rw [hA] at hx
    have hx0 : x = h0 := Eq.symm (by simpa using hx)
    subst hx0
    have hfls : ('/' == x) = false := by
      have h2 := h
      rw [str_slash] at h2
      simpa [HasSuffix, List.isSuffixOf, List.isPrefixOf, hA] using h2
    have : '/' ≠ x := by simpa [beq_eq_false_iff_ne] using hfls
    simpa [beq_eq_false_iff_ne] using this.symm

lemma trim_slash_eq_self (s : Str) (hne : s ≠ []) (hhead : s.head? ≠ some '/')
    (hslash : HasSuffix s (str "/") = false) : Trim s '/' = s := by
  have h1 : s.dropWhile (· == '/') = s :=
    dropWhile_eq_self_of_head _ _ (head_ne_slash_of s hhead)
  have h2 : s.reverse.dropWhile (· == '/') = s.reverse :=
    dropWhile_eq_self_of_head _ _ (revhead_ne_slash s hne hslash)
  simp [Trim, h1, h2]

lemma trim_slash_decorated (s deco : Str) (m k : Nat)
    (hne : s ≠ []) (hhead : s.head? ≠ some '/')
    (hrev : ∀ x, (deco.reverse ++ s.reverse).head? = some x → (x == '/') = false) :
    Trim (List.replicate m '/' ++ (s ++ (deco ++ List.replicate k '/'))) '/' = s ++ deco := by
  obtain ⟨a, as, rfl⟩ : ∃ a as, s = a :: as := by
    cases s with
    | nil => exact absurd rfl hne
    | cons a as => exact ⟨a, as, rfl⟩
  have hfront : (List.replicate m '/' ++
      (a :: as ++ (deco ++ List.replicate k '/'))).dropWhile (· == '/') =
      a :: as ++ (deco ++ List.replicate k '/') := by
    apply dropWhile_replicate_append
    apply dropWhile_eq_self_of_head
    intro x hx
    have hx0 : x = a := Eq.symm (by simpa using hx)
    subst hx0
    exact head_ne_slash_of _ hhead x rfl
  have hback : (a :: as ++ (deco ++ List.replicate k '/')).reverse.dropWhile (· == '/') =
      deco.reverse ++ (a :: as).reverse := by
    have hr : (a :: as ++ (deco ++ List.replicate k '/')).reverse =
        List.replicate k '/' ++ (deco.reverse ++ (a :: as).reverse) := by
      simp [List.reverse_append]
    rw [hr]
    apply dropWhile_replicate_append
    apply dropWhile_eq_self_of_head
    exact hrev
  rw [Trim, hfront, hback]
  simp [List.reverse_append]

lemma trimSuffix_append (s suf : Str) : TrimSuffix (s ++ suf) suf = s := by
  have hs : HasSuffix (s ++ suf) suf = true := by
    rw [HasSuffix, List.isSuffixOf_iff_suffix]
    exact List.suffix_append s suf
  simp [TrimSuffix, hs, List.take_left]

lemma trimSuffix_of_no_suffix (s suf : Str) (h : HasSuffix s suf = false) :
    TrimSuffix s suf = s := by
  simp [TrimSuffix, h]

lemma sanitizePath_core (s : Str) (m k : Nat) (j : Bool)
    (hne : s ≠ []) (hhead : s.head? ≠ some '/')
    (hslash : HasSuffix s (str "/") = false)
    (hjson : HasSuffix s (str ".json") = false) :
    sanitizePath
      (List.replicate m '/' ++ (s ++ ((if j then str ".json" else []) ++ List.replicate k '/')))
      = s := by
  cases j with
  | true =>
    have htrim : Trim (List.replicate m '/' ++
        (s ++ (str ".json" ++ List.replicate k '/'))) '/' = s ++ str ".json" := by
      apply trim_slash_decorated s (str ".json") m k hne hhead
      intro x hx
      have hx0 : x = 'n' := by
        have hj : (str ".json").reverse = 'n' :: str "osj." := by decide
        rw [hj] at hx
        exact Eq.symm (by simpa using hx)
      subst hx0
      decide
    show TrimSuffix (TrimSuffix (Trim (List.replicate m '/' ++
      (s ++ (str ".json" ++ List.replicate k '/'))) '/') (str ".json")) (str "/") = s
    rw [htrim, trimSuffix_append s (str ".json"), trimSuffix_of_no_suffix s (str "/") hslash]
  | false =>
    have htrim : Trim (List.replicate m '/' ++ (s ++ ([] ++ List.replicate k '/'))) '/' = s := by
      have h2 := trim_slash_decorated s [] m k hne hhead
        (by intro x hx; exact revhead_ne_slash s hne hslash x (by simpa using hx))
      simpa using h2
    show TrimSuffix (TrimSuffix (Trim (List.replicate m '/' ++
      (s ++ ([] ++ List.replicate k '/'))) '/') (str ".json")) (str "/") = s
    rw [htrim, trimSuffix_of_no_suffix s (str ".json") hjson,
      trimSuffix_of_no_suffix s (str "/") hslash]

/-- Claim C3 (counterexample): Child appends the segment /foo/ raw, producing
a doubled separator in the address, not the sanitized segment the claim
describes. -/
theorem child_no_sanitize_counterexample :
    (Firebase.Child ⟨str "https://h", []⟩ (str "/foo/")).url = str "https://h//foo/"
    ∧ (Firebase.Child ⟨str "https://h", []⟩ (str "/foo/")).url ≠
        str "https://h" ++ str "/" ++ sanitizePath (str "/foo/") := by
  constructor
  · decide
  · decide

/-- Claim C3 (amended): Child appends the raw segment after a slash — the
segment is not passed through sanitizePath — while sanitizePath itself
normalizes as the claim describes: every decoration of a clean segment by
leading slashes, a .json suffix and trailing slashes sanitizes to the same
clean segment, which sanitizePath leaves unchanged. -/
theorem child_append_and_sanitizePath_invariance :
    (∀ (fb : Firebase) (child : Str), (fb.Child child).url = fb.url ++ str "/" ++ child)
    ∧ (∀ (s : Str) (m k : Nat) (j : Bool),
        s ≠ [] → s.head? ≠ some '/' → HasSuffix s (str "/") = false →
        HasSuffix s (str ".json") = false →
        sanitizePath (List.replicate m '/' ++
            (s ++ ((if j then str ".json" else []) ++ List.replicate k '/'))) = s
        ∧ sanitizePath s = s) := by
  constructor
  · intro fb child
    rfl
  · intro s m k j hne hhead hslash hjson
    refine ⟨sanitizePath_core s m k j hne hhead hslash hjson, ?_⟩
    show TrimSuffix (TrimSuffix (Trim s '/') (str ".json")) (str "/") = s
    rw [trim_slash_eq_self s hne hhead hslash,
      trimSuffix_of_no_suffix s (str ".json") hjson,
      trimSuffix_of_no_suffix s (str "/") hslash]

/-- Witness for the amended claim C3: the decorated segment /foo.json/
sanitizes to the clean segment foo. -/
theorem child_append_and_sanitizePath_invariance_witness :
    sanitizePath (List.replicate 1 '/' ++
        (str "foo" ++ ((if true then str ".json" else []) ++ List.replicate 1 '/'))) = str "foo"
    ∧ sanitizePath (str "foo") = str "foo" :=
  child_append_and_sanitizePath_invariance.2 (str "foo") 1 1 true (by decide) (by decide)
    (by decide) (by decide)

lemma mem_assocSet {β : Type} (l : List (String × β)) (k : String) (v : β)
    (kv : String × β) (h : kv ∈ assocSet l k v) : kv ∈ l ∨ kv = (k, v) := by
  induction l with
  | nil => simpa [assocSet] using h
  | cons p rest ih =>
    obtain ⟨k2, v2⟩ := p
    simp only [assocSet] at h
    by_cases hk : (k2 == k) = true
    · rw [if_pos hk] at h
      rcases List.mem_cons.mp h with h1 | h1
      · exact Or.inr h1
      · exact Or.inl (List.mem_cons_of_mem _ h1)
    · rw [if_neg hk] at h
      rcases List.mem_cons.mp h with h1 | h1
      · exact Or.inl (h1 ▸ List.mem_cons_self _ _)
      · rcases ih h1 with h2 | h2
        · exact Or.inl (List.mem_cons_of_mem _ h2)
        · exact Or.inr h2

lemma mem_foldl_assocSet (ps : Values) :
    ∀ (acc : Values) (kv : String × Nat),
      kv ∈ ps.foldl (fun a p => assocSet a p.1 p.2) acc → kv ∈ acc ∨ kv ∈ ps := by
  induction ps with
  | nil => intro acc kv hx; exact Or.inl hx
  | cons p rest ih =>
    intro acc kv hx
    rw [List.foldl_cons] at hx
    rcases ih (assocSet acc p.1 p.2) kv hx with h3 | h3
    · rcases mem_assocSet acc p.1 p.2 kv h3 with h4 | h4
      · exact Or.inl h4
      · exact Or.inr (by rw [h4, Prod.mk.eta]; exact List.mem_cons_self _ _)
    · exact Or.inr (List.mem_cons_of_mem _ h3)

lemma mem_copyParams (ps : Values) (kv : String × Nat) (h : kv ∈ copyParams ps) : kv ∈ ps := by
  rcases mem_foldl_assocSet ps [] kv h with h3 | h3
  · simp at h3
  · exact h3

lemma valuesView_extend (st : Store) (extra : List (List String)) (vs : Values)
    (h : ∀ kv ∈ vs, kv.2 < st.cells.length) :
    valuesView ⟨st.cells ++ extra⟩ vs = valuesView st vs := by
  unfold valuesView
  apply List.map_congr_left
  intro kv hkv
  have hlt := h kv hkv
  simp [Store.read, List.getD_eq_getElem?_getD, List.getElem?_append, hlt]

/-- Claim C4 (counterexample): copy shares the slice values: after copying
the parameter map, the child holds the very same slice reference for the key
auth as the parent, and an in-place write into that slice addressed through
the child changes the parent's observable parameters. -/
theorem params_alias_counterexample :
    (copyParams [("auth", 0)]).lookup "auth" = ([("auth", 0)] : Values).lookup "auth"
    ∧ valuesView (Store.writeElem ⟨[["secret"]]⟩
        (((copyParams [("auth", 0)]).lookup "auth").getD 0) 0 "evil") [("auth", 0)] ≠
      valuesView ⟨[["secret"]]⟩ [("auth", 0)] := by
  constructor
  · decide
  · decide

/-- Claim C4 (amended): the child owns an independent map, so pointing a key
at a new value through url.Values.Set on either the child or the parent never
changes the view of the other side; the slice values themselves are however
shared by copy, so an in-place write into a shared slice element is visible
through both maps. -/
theorem child_params_key_level_independent :
    ∀ (st : Store) (ps : Values) (k v : String),
      (∀ kv ∈ ps, kv.2 < st.cells.length) →
      valuesView (valuesSet st (copyParams ps) k v).1 ps = valuesView st ps
      ∧ valuesView (valuesSet st ps k v).1 (copyParams ps) = valuesView st (copyParams ps) := by
  intro st ps k v h
  constructor
  · exact valuesView_extend st [[v]] ps h
  · refine valuesView_extend st [[v]] (copyParams ps) ?_
    intro kv hkv
    exact h kv (mem_copyParams ps kv hkv)

/-- Witness for the amended claim C4 at a concrete store and map. -/
theorem child_params_key_level_independent_witness :
    valuesView (valuesSet ⟨[["secret"]]⟩ (copyParams [("auth", 0)]) "shallow" "true").1
        [("auth", 0)] = valuesView ⟨[["secret"]]⟩ [("auth", 0)]
    ∧ valuesView (valuesSet ⟨[["secret"]]⟩ [("auth", 0)] "shallow" "true").1
        (copyParams [("auth", 0)]) = valuesView ⟨[["secret"]]⟩ (copyParams [("auth", 0)]) :=
  child_params_key_level_independent ⟨[["secret"]]⟩ [("auth", 0)] "shallow" "true" (by decide)

lemma lookup_assocSet_self {β : Type} (l : List (String × β)) (k : String) (v : β) :
    (assocSet l k v).lookup k = some v := by
  induction l with
  | nil => simp [assocSet, List.lookup]
  | cons p rest ih =>
    obtain ⟨k2, v2⟩ := p
    by_cases hk : k2 = k
    · subst hk
      simp [assocSet, List.lookup]
    · have hb : (k2 == k) = false := beq_eq_false_iff_ne.mpr hk
      have hb2 : (k == k2) = false := beq_eq_false_iff_ne.mpr (Ne.symm hk)
      simp [assocSet, List.lookup, hb, hb2, ih]

lemma lookup_assocSet_other {β : Type} (l : List (String × β)) (k k2 : String) (v : β)
    (h : k2 ≠ k) : (assocSet l k v).lookup k2 = l.lookup k2 := by
  have hb : (k2 == k) = false := beq_eq_false_iff_ne.mpr h
  induction l with
  | nil => simp [assocSet, List.lookup, hb]
  | cons p rest ih =>
    obtain ⟨k3, v3⟩ := p
    by_cases hk : k3 = k
    · subst hk
      simp [assocSet, List.lookup, hb]
    · have hb3 : (k3 == k) = false := beq_eq_false_iff_ne.mpr hk
      simp only [assocSet, hb3, Bool.false_eq_true, if_false]
      cases hx : k2 == k3 <;> simp [List.lookup, hx, ih]

lemma lookup_foldl_assocSet_of_not_mem {β : Type} (entries : List (String × β)) :
    ∀ (acc : List (String × β)) (k : String), k ∉ entries.map Prod.fst →
      (entries.foldl (fun a p => assocSet a p.1 p.2) acc).lookup k = acc.lookup k := by
  induction entries with
  | nil => intro acc k _; rfl
  | cons p rest ih =>
    intro acc k h
    rw [List.map_cons, List.mem_cons] at h
    push_neg at h
    obtain ⟨hne, hk⟩ := h
    rw [List.foldl_cons, ih _ k hk, lookup_assocSet_other acc p.1 k p.2 hne]

lemma lookup_foldl_assocSet_of_mem {β : Type} (entries : List (String × β)) :
    ∀ (acc : List (String × β)), (entries.map Prod.fst).Nodup →
      ∀ (k : String) (v : β), (k, v) ∈ entries →
        (entries.foldl (fun a p => assocSet a p.1 p.2) acc).lookup k = some v := by
  induction entries with
  | nil => intro acc _ k v h; simp at h
  | cons p rest ih =>
    intro acc hnd k v h
    obtain ⟨k1, v1⟩ := p
    rw [List.map_cons, List.nodup_cons] at hnd
    obtain ⟨hp, hnd2⟩ := hnd
    rw [List.foldl_cons]
    rcases List.mem_cons.mp h with h1 | h1
    · obtain ⟨hk, hv⟩ := Prod.mk.injEq .. ▸ h1
      subst hk
      subst hv
      rw [lookup_foldl_assocSet_of_not_mem rest (assocSet acc k v) k hp,
        lookup_assocSet_self acc k v]
    · exact ih (assocSet acc k1 v1) hnd2 k v h1

/-- Claim C6: within the hop bound the redirect policy writes every header of
the original first request of the chain onto the current redirect request,
and a chain of more than defaultRedirectLimit (30) prior requests makes the
policy return an error instead of silently continuing. -/
theorem redirect_preserves_headers_and_bounds :
    ∀ (req first : Request) (rest : List Request),
      ((first :: rest).length ≤ defaultRedirectLimit →
        (first.header.map Prod.fst).Nodup →
        ∃ req2, redirectPreserveHeaders req (first :: rest) = .ok req2
          ∧ ∀ k v, (k, v) ∈ first.header → req2.header.lookup k = some v)
      ∧ ((first :: rest).length > defaultRedirectLimit →
        ∃ msg, redirectPreserveHeaders req (first :: rest) = .error msg) := by
  intro req first rest
  constructor
  · intro hlen hnd
    have hlen2 : rest.length + 1 ≤ defaultRedirectLimit := by simpa using hlen
    refine ⟨⟨first.header.foldl (fun h kv => assocSet h kv.1 kv.2) req.header⟩, ?_, ?_⟩
    · simp [redirectPreserveHeaders, Nat.not_lt.mpr hlen2]
    · intro k v hkv
      exact lookup_foldl_assocSet_of_mem first.header req.header hnd k v hkv
  · intro hlen
    have hlt : defaultRedirectLimit < rest.length + 1 := by simpa using hlen
    refine ⟨toString (rest.length + 1) ++ " consecutive requests(redirects)", ?_⟩
    simp [redirectPreserveHeaders, hlt]

/-- Witness for claim C6: a one-hop chain preserves an auth header, and a
31-hop chain is rejected. -/
theorem redirect_preserves_headers_and_bounds_witness :
    (∃ req2, redirectPreserveHeaders ⟨[]⟩ [⟨[("Authorization", ["t"])]⟩] = .ok req2
      ∧ ∀ k v, (k, v) ∈ [("Authorization", ["t"])] → req2.header.lookup k = some v)
    ∧ (∃ msg, redirectPreserveHeaders ⟨[]⟩ (⟨[]⟩ :: List.replicate 30 ⟨[]⟩) = .error msg) :=
  ⟨(redirect_preserves_headers_and_bounds ⟨[]⟩ ⟨[("Authorization", ["t"])]⟩ []).1
      (by decide) (by decide),
    (redirect_preserves_headers_and_bounds ⟨[]⟩ ⟨[]⟩ (List.replicate 30 ⟨[]⟩)).2 (by decide)⟩

lemma runWatch_invariant_aux :
    ∀ (ops : List WatchOp) (s : WatchState),
      s.readers = (if s.watching then 1 else 0) →
      (ops.foldl stepWatch s).readers = (if (ops.foldl stepWatch s).watching then 1 else 0) := by
  intro ops
  induction ops with
  | nil => intro s h; exact h
  | cons op rest ih =>
    intro s h
    rw [List.foldl_cons]
    apply ih
    cases op with
    | start =>
      by_cases hw : s.watching
      · simpa [stepWatch, hw] using h
      · simp [stepWatch, hw] at h ⊢
        simp [h]
    | stop =>
      by_cases hw : s.watching
      · simp [stepWatch, hw] at h ⊢
        simp [h]
      · simpa [stepWatch, hw] using h

/-- Claim C8 (spec-modelled): over every serialized run of Start and Stop
steps at most one decode loop is ever live, and a Start issued while a
session is already active is a no-op: it returns the state unchanged and in
particular never spawns a second concurrent reader. -/
theorem watch_single_reader :
    (∀ ops : List WatchOp, (runWatch ops).readers ≤ 1)
    ∧ (∀ s : WatchState, s.watching = true → stepWatch s .start = s) := by
  constructor
  · intro ops
    have h := runWatch_invariant_aux ops initialWatchState rfl
    show (List.foldl stepWatch initialWatchState ops).readers ≤ 1
    cases hb : (List.foldl stepWatch initialWatchState ops).watching
    · rw [hb] at h
      simp at h
      omega
    · rw [hb] at h
      simp at h
      omega
  · intro s hw
    simp [stepWatch, hw]

/-- Witness for claim C8: starting while already watching leaves the state
with its single reader unchanged. -/
theorem watch_single_reader_witness :
    stepWatch ⟨true, 1⟩ .start = ⟨true, 1⟩ :=
  watch_single_reader.2 ⟨true, 1⟩ rfl
